import Mathlib

/-!
# Shallow embedding of `score.uwsgi` (files `iniparser.py` and `process.py`)

Strings are modelled as `List Char`; `strL` converts a Lean string literal.
Python semantics embedded here:

* `str.strip()` → `pstrip` (ASCII whitespace; the lines handled by this
  parser contain no other whitespace kinds),
* `str.split('\n')` → `splitLines`,
* `str.split('=', 1)` → `splitFirstEq` (`none` models the `ValueError`
  branch of `UwsgiIni.loads`),
* the values stored in a section are either strings or the Python booleans,
  rendered by `pyStr` exactly as Python's `str()` renders them.
-/

namespace ScoreUwsgi

def strL (s : String) : List Char := s.data

/-- Python ASCII whitespace as recognised by `str.strip()`:
space, tab, newline, carriage return, vertical tab, form feed. -/
def isPyWS (c : Char) : Bool :=
  c == ' ' || c == '\t' || c == '\n' || c == '\r' || c == '\x0b' || c == '\x0c'

/-- `str.lstrip()`. -/
def lstrip (l : List Char) : List Char := l.dropWhile isPyWS

/-- `str.rstrip()`. -/
def rstrip (l : List Char) : List Char := (l.reverse.dropWhile isPyWS).reverse

/-- `str.strip()`. -/
def pstrip (l : List Char) : List Char := rstrip (lstrip l)

/-- `str.split('\n')`: always returns at least one (possibly empty) piece. -/
def splitLines : List Char → List (List Char)
  | [] => [[]]
  | c :: rest =>
    if c = '\n' then [] :: splitLines rest
    else
      match splitLines rest with
      | [] => [[c]]
      | l :: ls => (c :: l) :: ls

/-- `str.split('=', 1)`: `none` when there is no `'='` in the string
(Python raises `ValueError` when unpacking into two variables then). -/
def splitFirstEq : List Char → Option (List Char × List Char)
  | [] => none
  | c :: rest =>
    if c = '=' then some ([], rest)
    else (splitFirstEq rest).map (fun p => (c :: p.1, p.2))

/-- A value stored in a section: either a string or a Python boolean
(`UwsgiIni` docstring: keys without values "will automatically receive the
value `True`", and the API also stores literal `True`). -/
inductive Value where
  | str (s : List Char)
  | bool (b : Bool)
deriving DecidableEq

/-- Python's `str()` applied to a stored value (used by `UwsgiIni.dumps`). -/
def pyStr : Value → List Char
  | .str s => s
  | .bool true => strL "True"
  | .bool false => strL "False"

/-- `UwsgiSection`: a named ordered list of (key, value) pairs; keys may
repeat (`self.pairs` in the source). -/
structure UwsgiSection where
  name : List Char
  pairs : List (List Char × Value)
deriving DecidableEq

/-- `UwsgiIni.sections`: an `OrderedDict` of sections, modelled as a list
in insertion order (name uniqueness is an invariant, proved for `loads`). -/
abbrev IniDoc := List UwsgiSection

/-- Exceptions raised by the embedded code. -/
inductive PyExn where
  | typeError
  | keyError (k : List Char)
  | nameError
  | indexError
  | notRunning
  | valueError
  | alreadyPaused
  | alreadyRunning
  | alreadyReloading
deriving DecidableEq

/-- `UwsgiSection.__setitem__`: appends the pair. -/
def sectionSet (sec : UwsgiSection) (key : List Char) (v : Value) : UwsgiSection :=
  ⟨sec.name, sec.pairs ++ [(key, v)]⟩

/-- Loop of `UwsgiSection.__getitem__` over `reversed(self.pairs)`; the
second argument remembers the last loop variable `k` for the final
`raise KeyError(k)` (a `NameError` if the loop never ran). -/
def sectionGetGo (key : List Char) : List (List Char × Value) → Option (List Char) →
    Except PyExn Value
  | [], none => .error .nameError
  | [], some k => .error (.keyError k)
  | (k, v) :: rest, _ =>
    if key = k then .ok v else sectionGetGo key rest (some k)

/-- `UwsgiSection.__getitem__`: scans the pairs in reverse, returning the
first (i.e. most recently appended) match. -/
def sectionGet (sec : UwsgiSection) (key : List Char) : Except PyExn Value :=
  sectionGetGo key sec.pairs.reverse none

/-- `UwsgiSection.get_all`: the list comprehension
`[v for k, v in self.pairs if k == key]`. -/
def sectionGetAll (sec : UwsgiSection) (key : List Char) : List Value :=
  sec.pairs.foldr (fun p acc => if p.1 = key then p.2 :: acc else acc) []

/-- `UwsgiSection.reset`: the source iterates
`reversed(enumerate(self.pairs))`, but an `enumerate` object is not a
sequence, so in Python 3 `reversed(...)` raises
`TypeError: argument to reversed() must be a sequence` unconditionally,
before any pair is touched.  The same applies to `UwsgiSection.pop`. -/
def sectionReset (sec : UwsgiSection) (key : List Char) :
    Except PyExn UwsgiSection :=
  .error .typeError

/-- `UwsgiIni.__getitem__`: returns the section of that name, creating and
inserting an empty one (at the end of the order) when absent. -/
def docGetItem (doc : IniDoc) (key : List Char) : UwsgiSection × IniDoc :=
  match doc.find? (fun s => s.name = key) with
  | some s => (s, doc)
  | none => (⟨key, []⟩, doc ++ [⟨key, []⟩])

/-- `OrderedDict.__setitem__` with a fresh empty section
(`self.sections[name] = UwsgiSection(name)` in `loads`): an existing key
keeps its position while its value is replaced; a new key is appended. -/
def odInsertFresh (doc : IniDoc) (name : List Char) : IniDoc :=
  if doc.any (fun s => s.name = name) then
    doc.map (fun s => if s.name = name then ⟨name, []⟩ else s)
  else
    doc ++ [⟨name, []⟩]

/-- `section[k] = v` inside `loads`: the local `section` variable aliases
the dict entry of the current name, so the pair is appended to that entry. -/
def appendPairTo (doc : IniDoc) (name : List Char) (key : List Char) (v : Value) :
    IniDoc :=
  doc.map (fun s => if s.name = name then sectionSet s key v else s)

/-- The kinds of `ParseError` raised by `UwsgiIni.loads`, together with the
line number interpolated into the message. -/
inductive ErrKind where
  | unterminated
  | badName
  | outside
deriving DecidableEq

structure ParseErr where
  line : Nat
  kind : ErrKind
deriving DecidableEq

/-- One character of the section-name pattern `[a-zA-Z0-9_-]`. -/
def isNameChar (c : Char) : Bool :=
  (('a' ≤ c && c ≤ 'z') || ('A' ≤ c && c ≤ 'Z') || ('0' ≤ c && c ≤ '9')
    || c == '_' || c == '-')

/-- `re.match(r'[a-zA-Z0-9_-]+$', name)` for a name containing no newline. -/
def validSectionName (name : List Char) : Bool :=
  name ≠ [] && name.all isNameChar

/-- The loop body of `UwsgiIni.loads` over `enumerate(string.split('\n'))`:
`i` is the index of the first line of `lines`, `secs` the sections read so
far, `cur` the name of the current section (`None` before the first
header). -/
def loadsAux : List (List Char) → Nat → IniDoc → Option (List Char) →
    Except ParseErr IniDoc
  | [], _, secs, _ => .ok secs
  | rawLine :: rest, i, secs, cur =>
    let line := pstrip rawLine
    match line with
    | [] => loadsAux rest (i + 1) secs cur
    | c :: cs =>
      if c = ';' then loadsAux rest (i + 1) secs cur
      else if c = '[' then
        if (c :: cs).getLast (by simp) ≠ ']' then
          .error ⟨i, .unterminated⟩
        else
          let name := pstrip (cs.dropLast)
          if ¬ validSectionName name then
            .error ⟨i, .badName⟩
          else
            loadsAux rest (i + 1) (odInsertFresh secs name) (some name)
      else
        match cur with
        | none => .error ⟨i, .outside⟩
        | some curName =>
          match splitFirstEq (c :: cs) with
          | some (k, v) =>
            loadsAux rest (i + 1)
              (appendPairTo secs curName (pstrip k) (.str (pstrip v))) cur
          | none =>
            loadsAux rest (i + 1)
              (appendPairTo secs curName (c :: cs) (.bool true)) cur

/-- `UwsgiIni.loads`. -/
def loads (s : List Char) : Except ParseErr IniDoc :=
  loadsAux (splitLines s) 0 [] none

/-- One serialized pair line: `'%s = %s\n' % (k, str(v))`. -/
def dumpPair (p : List Char × Value) : List Char :=
  p.1 ++ strL " = " ++ pyStr p.2 ++ ['\n']

/-- One serialized section: header, pair lines, then a blank line. -/
def dumpSection (sec : UwsgiSection) : List Char :=
  '[' :: sec.name ++ [']', '\n'] ++ sec.pairs.foldr (fun p acc => dumpPair p ++ acc) []
    ++ ['\n']

/-- `UwsgiIni.dumps`. -/
def dumps (doc : IniDoc) : List Char :=
  doc.foldr (fun sec acc => dumpSection sec ++ acc) []

/-!
## `process.py`

I/O is embedded by making the observation explicit: the outcome of the
statistics-socket interaction is a `SockOutcome` value, and mutating
operations return the list of side effects they performed (fifo writes,
ini-file writes, process launches) alongside an optional raised exception.
-/

/-- The parsed JSON status blob of a process (`pid` plus the `status`
string of each worker; only these fields are read by the code). -/
structure Stats where
  pid : Int
  workers : List (List Char)
deriving DecidableEq

instance {ε α : Type} [DecidableEq ε] [DecidableEq α] : DecidableEq (Except ε α) :=
  fun x y =>
    match x, y with
    | .ok a, .ok b =>
      if h : a = b then isTrue (by rw [h]) else isFalse (by simp [h])
    | .error a, .error b =>
      if h : a = b then isTrue (by rw [h]) else isFalse (by simp [h])
    | .ok _, .error _ => isFalse (by simp)
    | .error _, .ok _ => isFalse (by simp)

/-- What the statistics socket interaction in `read_stats` can yield:
data (with the result of `json.loads` on it, which may itself fail), or
one of the three caught socket errors. -/
inductive SockOutcome where
  | yields (parsed : Except Unit Stats)
  | fileNotFound
  | connRefused
  | connReset
deriving DecidableEq

/-- `UwsgiProcess.read_stats`: the `try` block catches exactly
`FileNotFoundError`, `ConnectionRefusedError` and `ConnectionResetError`
and re-raises them as `NotRunning`; a JSON decoding failure
(`ValueError`) propagates unchanged. -/
def read_stats (o : SockOutcome) : Except PyExn Stats :=
  match o with
  | .yields (.ok st) => .ok st
  | .yields (.error _) => .error .valueError
  | .fileNotFound => .error .notRunning
  | .connRefused => .error .notRunning
  | .connReset => .error .notRunning

/-- `UwsgiProcess.is_running`: catches only `NotRunning`. -/
def is_running (o : SockOutcome) : Except PyExn Bool :=
  match read_stats o with
  | .ok _ => .ok true
  | .error .notRunning => .ok false
  | .error e => .error e

/-- The `UwsgiProcess.pid` property: catches only `NotRunning`. -/
def pidOf (o : SockOutcome) : Except PyExn (Option Int) :=
  match read_stats o with
  | .ok st => .ok (some st.pid)
  | .error .notRunning => .ok none
  | .error e => .error e

/-- `Zergling.is_paused`: `read_stats()['workers'][0]['status'] == 'pause'`;
an empty worker list raises `IndexError`. -/
def is_paused (o : SockOutcome) : Except PyExn Bool :=
  match read_stats o with
  | .error e => .error e
  | .ok st =>
    match st.workers with
    | [] => .error .indexError
    | w :: _ => .ok (w = strL "pause")

/-- A side effect performed by a lifecycle operation. -/
inductive Effect where
  | writeFifo (path : List Char) (c : Char)
  | writeIni (doc : IniDoc)
  | startProcess
deriving DecidableEq

/-- `Zergling.pause`: check `is_paused()` first, then write `'p'`. -/
def pauseOp (o : SockOutcome) (fifo : List Char) : List Effect × Option PyExn :=
  match is_paused o with
  | .error e => ([], some e)
  | .ok true => ([], some .alreadyPaused)
  | .ok false => ([.writeFifo fifo 'p'], none)

/-- `Zergling.resume`: check `is_paused()` first, then write `'p'`. -/
def resumeOp (o : SockOutcome) (fifo : List Char) : List Effect × Option PyExn :=
  match is_paused o with
  | .error e => ([], some e)
  | .ok false => ([], some .alreadyRunning)
  | .ok true => ([.writeFifo fifo 'p'], none)

/-- The `for plugin in section.get_all('plugin')` loop of
`Zergling.reload`: collects every entry other than `startpaused` into
`plugins` (in order), records whether `startpaused` was seen, and breaks
early when it is seen while the captured intent is paused. -/
def scanPlugins (startpaused : Bool) (acc : List Value) (found : Bool) :
    List Value → List Value × Bool
  | [] => (acc, found)
  | v :: rest =>
    if v = .str (strL "startpaused") then
      if startpaused then (acc, true)
      else scanPlugins startpaused acc true rest
    else scanPlugins startpaused (acc ++ [v]) found rest

/-- `try: startpaused = self.is_paused() except NotRunning:
startpaused = False` — only `NotRunning` is swallowed. -/
def capturedPauseIntent (o : SockOutcome) : Except PyExn Bool :=
  match is_paused o with
  | .ok b => .ok b
  | .error .notRunning => .ok false
  | .error e => .error e

/-- `Zergling.reload`: the `is_reloading()` guard, the `'1'` fifo write,
the capture of the pause intent, the `plugin` normalisation (which calls
`UwsgiSection.reset` when the `startpaused` entry must be removed), the
idempotent `hook-accepting1-once` insertion, the ini write and the final
`start(quiet, checkrunning=False)` (abstracted as one launch effect). -/
def reloadOp (reloading : Bool) (o : SockOutcome) (fifo : List Char)
    (name : List Char) (doc : IniDoc) : List Effect × Option PyExn :=
  if reloading then ([], some .alreadyReloading)
  else
    let eff0 : List Effect := [.writeFifo fifo '1']
    match capturedPauseIntent o with
    | .error e => (eff0, some e)
    | .ok startpaused =>
      let secdoc := docGetItem doc (strL "zergling-" ++ name)
      let sec := secdoc.1
      let pf := scanPlugins startpaused [] false (sectionGetAll sec (strL "plugin"))
      let step : Except PyExn UwsgiSection :=
        if pf.2 && !startpaused then
          match sectionReset sec (strL "plugin") with
          | .error e => .error e
          | .ok sec2 =>
            .ok (pf.1.foldl (fun s v => sectionSet s (strL "plugin") v) sec2)
        else if !pf.2 && startpaused then
          .ok (sectionSet sec (strL "plugin") (.str (strL "startpaused")))
        else .ok sec
      match step with
      | .error e => (eff0, some e)
      | .ok sec2 =>
        let hook := strL "writefifo:" ++ fifo ++ strL ".restart q"
        let sec3 :=
          if (sectionGetAll sec2 (strL "hook-accepting1-once")).contains (.str hook)
          then sec2
          else sectionSet sec2 (strL "hook-accepting1-once") (.str hook)
        let doc2 := secdoc.2.map (fun s => if s.name = sec3.name then sec3 else s)
        (eff0 ++ [.writeIni doc2, .startProcess], none)

/-- The pair list written by `Zergling.regenini` (source lines 259-275),
parameterised by the derived paths; `pyTag` stands for
`''.join(map(str, sys.version_info[:2]))`. -/
def regeniniPairs (startpaused : Bool) (virtualenv : Option (List Char))
    (folder logfile statsSocket fifo appini startupFile pyTag : List Char) :
    List (List Char × Value) :=
  (match virtualenv with
   | some v => [(strL "virtualenv", Value.str v)]
   | none => []) ++
  [(strL "zerg", Value.str (folder ++ strL "/zerg.socket")),
   (strL "daemonize", Value.str logfile),
   (strL "logdate", Value.bool true),
   (strL "stats-server", Value.str statsSocket),
   (strL "master-fifo", Value.str fifo),
   (strL "master-fifo", Value.str (fifo ++ strL ".restart"))] ++
  (if startpaused then [(strL "plugin", Value.str (strL "startpaused"))] else []) ++
  [(strL "plugin", Value.str (strL "python" ++ pyTag)),
   (strL "ini-paste", Value.str appini),
   (strL "hook-asap", Value.str (strL "write:" ++ startupFile ++ strL " true")),
   (strL "hook-accepting1-once", Value.str (strL "unlink:" ++ startupFile)),
   (strL "hook-as-user-atexit", Value.str (strL "unlink:" ++ fifo ++ strL ".restart")),
   (strL "hook-as-user-atexit", Value.str (strL "unlink:" ++ startupFile))]

/-!
## Derived definitions used to state the claims
-/

/-- The text of one serialized pair line, without the trailing newline. -/
def pairLine (p : List Char × Value) : List Char :=
  p.1 ++ strL " = " ++ pyStr p.2

/-- The lines a section serializes to: header, pair lines, blank line. -/
def lineListSec (sec : UwsgiSection) : List (List Char) :=
  ('[' :: sec.name ++ [']']) :: (sec.pairs.map pairLine ++ [[]])

/-- All lines a document serializes to. -/
def allLines (doc : IniDoc) : List (List Char) :=
  doc.foldr (fun sec acc => lineListSec sec ++ acc) []

/-- Joins lines, terminating each with a newline. -/
def joinNl (ls : List (List Char)) : List Char :=
  ls.foldr (fun l acc => l ++ '\n' :: acc) []

/-- A key or rendered value that survives the serialize/parse round trip
verbatim: single-line, already trimmed. -/
def IsClean (l : List Char) : Prop := '\n' ∉ l ∧ pstrip l = l

/-- A pair whose serialized line parses back to the pair itself: key and
rendered value clean, no `=` inside the key, and the key does not make the
line a comment or a section header. -/
def WfPair (p : List Char × Value) : Prop :=
  IsClean p.1 ∧ IsClean (pyStr p.2) ∧ '=' ∉ p.1 ∧
  p.1.head? ≠ some ';' ∧ p.1.head? ≠ some '['

/-- A document whose serialization parses back to itself (up to boolean
normalization): unique valid section names and well-formed pairs. -/
def WfDoc (doc : IniDoc) : Prop :=
  (doc.map (fun sec => sec.name)).Nodup ∧
  ∀ sec ∈ doc, validSectionName sec.name = true ∧ ∀ p ∈ sec.pairs, WfPair p

instance (l : List Char) : Decidable (IsClean l) := by
  unfold IsClean
  infer_instance

instance (p : List Char × Value) : Decidable (WfPair p) := by
  unfold WfPair
  infer_instance

instance (doc : IniDoc) : Decidable (WfDoc doc) := by
  unfold WfDoc
  infer_instance

/-- Boolean values normalize to their string literal on a round trip. -/
def normPair (p : List Char × Value) : List Char × Value :=
  (p.1, Value.str (pyStr p.2))

def normSec (sec : UwsgiSection) : UwsgiSection :=
  ⟨sec.name, sec.pairs.map normPair⟩

def normDoc (doc : IniDoc) : IniDoc :=
  doc.map normSec

/-- Modelled from the spec (§4.1 / claim C5): scans the lines in order
with a 0-based counter, skipping blank and `;`-prefixed lines, and
returns the first offending line with its kind: (a) starts with `[` but
does not end in `]`, (b) bracketed but the inner name does not match
`[A-Za-z0-9_-]+`, (c) a content line appearing before any section
header (the flag records whether a header has been passed). -/
def specFirstBadLine : List (List Char) → Nat → Bool → Option ParseErr
  | [], _, _ => none
  | rawLine :: rest, i, seen =>
    match pstrip rawLine with
    | [] => specFirstBadLine rest (i + 1) seen
    | c :: cs =>
      if c = ';' then specFirstBadLine rest (i + 1) seen
      else if c = '[' then
        if (c :: cs).getLast (by simp) ≠ ']' then some ⟨i, .unterminated⟩
        else if ¬ validSectionName (pstrip cs.dropLast) then some ⟨i, .badName⟩
        else specFirstBadLine rest (i + 1) true
      else if seen then specFirstBadLine rest (i + 1) seen
      else some ⟨i, .outside⟩

/-- Shifts the line number of a parse failure (used to state that lines
are counted 0-based, including skipped ones). -/
def shiftErr (n : Nat) : Except ParseErr IniDoc → Except ParseErr IniDoc
  | .ok d => .ok d
  | .error e => .error ⟨e.line + n, e.kind⟩

/-!
## Theorems
-/

/-- Claim C7: read_stats returns the parsed JSON status when the socket
yields (decodable) data, fails with NotRunning exactly on socket-not-found,
connection-refused and connection-reset (a JSON decode failure raises
ValueError, not NotRunning), is_running is true iff read_stats succeeds,
and pid is None iff read_stats fails with NotRunning. -/
theorem read_stats_notRunning_exactly :
    (∀ st, read_stats (.yields (.ok st)) = .ok st) ∧
    (∀ o, read_stats o = .error .notRunning ↔
      (o = .fileNotFound ∨ o = .connRefused ∨ o = .connReset)) ∧
    (∀ o, is_running o = .ok true ↔ (read_stats o).isOk = true) ∧
    (∀ o, pidOf o = .ok none ↔ read_stats o = .error .notRunning) := by
  refine ⟨fun st => rfl, fun o => ?_, fun o => ?_, fun o => ?_⟩ <;>
    rcases o with ⟨st | e⟩ | _ | _ | _ <;>
      simp [read_stats, is_running, pidOf, Except.isOk, Except.toBool]

/-- Claim C6: when pause, resume or reload refuses a no-op transition
(AlreadyPaused, AlreadyRunning, AlreadyReloading), the guard fires before
any side effect: the returned effect list is empty, so nothing is written
to the control fifo and the config file is untouched. -/
theorem noop_guards_have_no_side_effects :
    (∀ o fifo, is_paused o = .ok true →
      pauseOp o fifo = ([], some .alreadyPaused)) ∧
    (∀ o fifo, is_paused o = .ok false →
      resumeOp o fifo = ([], some .alreadyRunning)) ∧
    (∀ o fifo name doc,
      reloadOp true o fifo name doc = ([], some .alreadyReloading)) := by
  refine ⟨fun o fifo h => ?_, fun o fifo h => ?_, fun o fifo name doc => rfl⟩ <;>
    simp [pauseOp, resumeOp, h]

theorem noop_guards_have_no_side_effects_witness :
    pauseOp (.yields (.ok ⟨1, [strL "pause"]⟩)) (strL "/f")
        = ([], some .alreadyPaused) ∧
    resumeOp (.yields (.ok ⟨1, [strL "idle"]⟩)) (strL "/f")
        = ([], some .alreadyRunning) ∧
    reloadOp true .fileNotFound (strL "/f") (strL "1") []
        = ([], some .alreadyReloading) :=
  ⟨noop_guards_have_no_side_effects.1 _ _ (by decide),
   noop_guards_have_no_side_effects.2.1 _ _ (by decide),
   noop_guards_have_no_side_effects.2.2 _ _ _ _⟩

/-- Claim C8: indexing a document by a missing section name never fails;
it creates an empty section of that name, appends it at the end of the
section order, and returns it — the lookup mutates the document. -/
theorem docGetItem_missing_creates (doc : IniDoc) (key : List Char)
    (h : ∀ sec ∈ doc, sec.name ≠ key) :
    docGetItem doc key = (⟨key, []⟩, doc ++ [⟨key, []⟩]) := by
  unfold docGetItem
  have hnone : doc.find? (fun s => s.name = key) = none := by
    rw [List.find?_eq_none]
    intro s hs
    simpa using h s hs
  rw [hnone]

theorem docGetItem_missing_creates_witness :
    docGetItem [⟨strL "overlord", []⟩] (strL "zergling-1")
      = (⟨strL "zergling-1", []⟩,
         [⟨strL "overlord", []⟩, ⟨strL "zergling-1", []⟩]) :=
  docGetItem_missing_creates _ _ (by decide)

/-- Claim C2 (code bug): UwsgiSection.reset is documented to remove every
pair with the given key, but its loop iterates reversed(enumerate(...)),
and an enumerate object is not a sequence, so Python 3 raises TypeError
unconditionally; on a section with three plugin pairs, reset('plugin')
raises instead of removing them. -/
theorem reset_three_plugins_raises_typeError :
    sectionReset
      ⟨strL "s",
        [(strL "plugin", Value.str (strL "a")),
         (strL "plugin", Value.str (strL "b")),
         (strL "plugin", Value.str (strL "c"))]⟩
      (strL "plugin") = .error .typeError := rfl

/-- Claim C1 (code bug): on a section regenerated with start_paused=true,
reload with a captured non-paused intent reaches section.reset('plugin'),
which raises TypeError (see reset_three_plugins_raises_typeError); the
reload stops after the single fifo write — the ini file is never
rewritten, so no section without the startpaused entry is persisted. -/
theorem reload_startpaused_removal_crashes :
    reloadOp false (.yields (.ok ⟨123, [strL "idle"]⟩))
      (strL "/r/o/zergling-1.fifo") (strL "1")
      [⟨strL "zergling-1",
        regeniniPairs true none (strL "/r/o") (strL "/r/o/zergling-1.log")
          (strL "/r/o/zergling-1.stats.sock") (strL "/r/o/zergling-1.fifo")
          (strL "app.ini") (strL "/r/o/zergling-1.startup") (strL "35")⟩]
      = ([.writeFifo (strL "/r/o/zergling-1.fifo") '1'], some .typeError) := by
  rfl

/-- The reversed-scan loop of UwsgiSection.__getitem__ returns the value
of the first match that List.find? would deliver, whatever the remembered
loop variable is. -/
theorem sectionGetGo_of_find? (key : List Char) :
    ∀ (l : List (List Char × Value)) (last : Option (List Char))
      (p : List Char × Value),
      l.find? (fun q => q.1 = key) = some p → sectionGetGo key l last = .ok p.2 := by
  intro l
  induction l with
  | nil => intro last p h; simp at h
  | cons q t ih =>
    intro last p h
    obtain ⟨k, v⟩ := q
    by_cases hk : k = key
    · rw [List.find?_cons_of_pos _ (by simp [hk])] at h
      cases h
      simp [sectionGetGo, hk]
    · rw [List.find?_cons_of_neg _ (by simp [hk])] at h
      have hk' : ¬ key = k := fun hc => hk hc.symm
      simp only [sectionGetGo, if_neg hk']
      exact ih _ p h

/-- Searching the reverse of a list finds the last match. -/
theorem find?_reverse_eq_getLast?_filter {α : Type} (p : α → Bool) :
    ∀ l : List α, l.reverse.find? p = (l.filter p).getLast? := by
  intro l
  induction l with
  | nil => rfl
  | cons x t ih =>
    rw [List.reverse_cons, List.find?_append, ih, List.filter_cons]
    by_cases hx : p x
    · rw [if_pos hx, List.find?_cons_of_pos _ hx, List.getLast?_cons]
      cases (t.filter p).getLast? <;> simp
    · rw [if_neg hx, List.find?_cons_of_neg _ (by simpa using hx), List.find?_nil,
        Option.or_none]

/-- The get_all comprehension filters the pairs by key, keeping order. -/
theorem sectionGetAll_eq_filter (sec : UwsgiSection) (key : List Char) :
    sectionGetAll sec key
      = (sec.pairs.filter (fun q => q.1 = key)).map (fun q => q.2) := by
  unfold sectionGetAll
  induction sec.pairs with
  | nil => rfl
  | cons q t ih =>
    rw [List.foldr_cons, List.filter_cons]
    by_cases hq : q.1 = key <;> simp [hq, ih]

/-- Claim C4: for a key occurring in a section, single lookup returns the
value of the most recently appended pair with that key (the last element
of the filtered pair list), and get_all returns all its values in
insertion order. -/
theorem lookup_last_write_wins (sec : UwsgiSection) (key : List Char)
    (h : ∃ p ∈ sec.pairs, p.1 = key) :
    (∃ p, (sec.pairs.filter (fun q => q.1 = key)).getLast? = some p ∧
      sectionGet sec key = .ok p.2) ∧
    sectionGetAll sec key
      = (sec.pairs.filter (fun q => q.1 = key)).map (fun q => q.2) := by
  refine ⟨?_, sectionGetAll_eq_filter sec key⟩
  have hne : sec.pairs.filter (fun q => q.1 = key) ≠ [] := by
    intro hc
    obtain ⟨p, hp, hpk⟩ := h
    exact (List.filter_eq_nil_iff.mp hc p hp) (by simp [hpk])
  obtain ⟨p, hp⟩ := Option.ne_none_iff_exists'.mp
    (fun hc => hne (List.getLast?_eq_none_iff.mp hc))
  refine ⟨p, hp, ?_⟩
  unfold sectionGet
  apply sectionGetGo_of_find?
  rw [find?_reverse_eq_getLast?_filter]
  exact hp

theorem lookup_last_write_wins_witness :
    (∃ p ∈ (UwsgiSection.mk (strL "s")
        [(strL "plugin", Value.str (strL "a")),
         (strL "x", Value.str (strL "q")),
         (strL "plugin", Value.str (strL "c"))]).pairs, p.1 = strL "plugin") ∧
    (∃ p, ((UwsgiSection.mk (strL "s")
        [(strL "plugin", Value.str (strL "a")),
         (strL "x", Value.str (strL "q")),
         (strL "plugin", Value.str (strL "c"))]).pairs.filter
          (fun q => q.1 = strL "plugin")).getLast? = some p ∧
      sectionGet (UwsgiSection.mk (strL "s")
        [(strL "plugin", Value.str (strL "a")),
         (strL "x", Value.str (strL "q")),
         (strL "plugin", Value.str (strL "c"))]) (strL "plugin") = .ok p.2) :=
  ⟨by decide, (lookup_last_write_wins _ _ (by decide)).1⟩

/-- Appending a pair to the current section does not change the list of
section names. -/
theorem names_appendPairTo (secs : IniDoc) (n k : List Char) (v : Value) :
    (appendPairTo secs n k v).map (fun s => s.name)
      = secs.map (fun s => s.name) := by
  unfold appendPairTo
  rw [List.map_map]
  apply List.map_congr_left
  intro s _
  by_cases hs : s.name = n <;> simp [hs, sectionSet]

/-- Inserting a fresh section keeps the name list nodup: an existing name
is replaced in place, a new name is appended. -/
theorem nodup_odInsertFresh (secs : IniDoc) (n : List Char)
    (h : (secs.map (fun s => s.name)).Nodup) :
    ((odInsertFresh secs n).map (fun s => s.name)).Nodup := by
  unfold odInsertFresh
  by_cases ha : secs.any (fun s => s.name = n)
  · rw [if_pos ha, List.map_map]
    have heq : secs.map ((fun s => s.name) ∘ fun s =>
        if s.name = n then UwsgiSection.mk n [] else s)
        = secs.map (fun s => s.name) := by
      apply List.map_congr_left
      intro s _
      by_cases hs : s.name = n <;> simp [hs]
    rw [heq]; exact h
  · rw [if_neg ha, List.map_append]
    rw [List.nodup_append]
    refine ⟨h, by simp, ?_⟩
    intro x hx
    simp only [List.map_cons, List.map_nil, List.mem_singleton]
    intro hxn
    subst hxn
    obtain ⟨s, hs, hsn⟩ := List.mem_map.mp hx
    exact ha (List.any_eq_true.mpr ⟨s, hs, by simp [hsn]⟩)

/-- Successful parses only produce documents with nodup section names. -/
theorem loadsAux_nodup :
    ∀ (lines : List (List Char)) (i : Nat) (secs : IniDoc)
      (cur : Option (List Char)) (doc : IniDoc),
      (secs.map (fun s => s.name)).Nodup → loadsAux lines i secs cur = .ok doc →
      (doc.map (fun s => s.name)).Nodup := by
  intro lines
  induction lines with
  | nil =>
    intro i secs cur doc hn h
    cases h
    exact hn
  | cons l rest ih =>
    intro i secs cur doc hn h
    simp only [loadsAux] at h
    split at h
    · exact ih _ _ _ _ hn h
    · split at h
      · exact ih _ _ _ _ hn h
      · split at h
        · split at h
          · cases h
          · split at h
            · cases h
            · exact ih _ _ _ _ (nodup_odInsertFresh _ _ hn) h
        · split at h
          · cases h
          · split at h
            · refine ih _ _ _ _ ?_ h
              rw [show ((appendPairTo secs _ _ _).map (fun s => s.name)).Nodup
                  = ((secs.map (fun s => s.name)).Nodup) from ?_]
              · exact hn
              · rw [names_appendPairTo]
            · refine ih _ _ _ _ ?_ h
              rw [show ((appendPairTo secs _ _ _).map (fun s => s.name)).Nodup
                  = ((secs.map (fun s => s.name)).Nodup) from ?_]
              · exact hn
              · rw [names_appendPairTo]

/-- Claim C9: parsing text with two identical section headers succeeds —
the second header starts a fresh section whose pairs replace the first's
while keeping its original position — and every successful parse yields a
document with unique section names. -/
theorem parse_duplicate_headers_replace :
    (∀ s doc, loads s = .ok doc → (doc.map (fun sec => sec.name)).Nodup) ∧
    loads (strL "[a]\nx = 1\n[b]\n[a]\ny = 2")
      = .ok [⟨strL "a", [(strL "y", Value.str (strL "2"))]⟩, ⟨strL "b", []⟩] := by
  constructor
  · intro s doc h
    exact loadsAux_nodup _ 0 [] none doc (by simp) h
  · rfl

theorem parse_duplicate_headers_replace_witness :
    (([⟨strL "a", [(strL "y", Value.str (strL "2"))]⟩,
       (⟨strL "b", []⟩ : UwsgiSection)] : IniDoc).map
         (fun sec => sec.name)).Nodup :=
  parse_duplicate_headers_replace.1 _ _ parse_duplicate_headers_replace.2

/-- The line counter only offsets the reported error line; it does not
influence anything else. -/
theorem loadsAux_shift :
    ∀ (lines : List (List Char)) (i : Nat) (secs : IniDoc)
      (cur : Option (List Char)),
      loadsAux lines i secs cur = shiftErr i (loadsAux lines 0 secs cur) := by
  intro lines
  induction lines with
  | nil => intro i secs cur; rfl
  | cons l rest ih =>
    intro i secs cur
    simp only [loadsAux]
    have comp : ∀ r, shiftErr i (shiftErr 1 r) = shiftErr (i + 1) r := by
      intro r
      cases r with
      | ok d => rfl
      | error e => simp [shiftErr]; omega
    split
    · rw [ih (i + 1), ih 1, comp]
    · split
      · rw [ih (i + 1), ih 1, comp]
      · split
        · split
          · simp [shiftErr]
          · split
            · simp [shiftErr]
            · rw [ih (i + 1), ih 1, comp]
        · split
          · simp [shiftErr]
          · split
            · rw [ih (i + 1), ih 1, comp]
            · rw [ih (i + 1), ih 1, comp]

/-- A blank or comment line is skipped: only the counter advances. -/
theorem loadsAux_skip (l : List Char) (rest : List (List Char)) (i : Nat)
    (secs : IniDoc) (cur : Option (List Char))
    (h : pstrip l = [] ∨ (pstrip l).head? = some ';') :
    loadsAux (l :: rest) i secs cur = loadsAux rest (i + 1) secs cur := by
  simp only [loadsAux]
  rcases h with h | h
  · rw [h]
  · rcases hp : pstrip l with _ | ⟨c, cs⟩
    · rfl
    · rw [hp] at h
      simp only [List.head?] at h
      cases h
      simp

/-- Claim C10: the line number carried by a ParseError is the 0-based
index of the offending line, counting blank and comment lines: prefixing
any number of skipped lines shifts the reported line by exactly their
count, and an offending first line is reported as line 0. -/
theorem parseError_line_is_zero_based :
    (∀ pre rest, (∀ l ∈ pre, pstrip l = [] ∨ (pstrip l).head? = some ';') →
      loadsAux (pre ++ rest) 0 [] none
        = shiftErr pre.length (loadsAux rest 0 [] none)) ∧
    loads (strL "x") = .error ⟨0, .outside⟩ := by
  constructor
  · intro pre
    induction pre with
    | nil =>
      intro rest _
      simp only [List.nil_append, List.length_nil]
      cases h : loadsAux rest 0 [] none with
      | ok d => rfl
      | error e => simp [shiftErr]
    | cons l pre' ih =>
      intro rest hskip
      rw [List.cons_append,
        loadsAux_skip l (pre' ++ rest) 0 [] none (hskip l (by simp)),
        loadsAux_shift _ 1, ih rest (fun x hx => hskip x (by simp [hx]))]
      cases loadsAux rest 0 [] none with
      | ok d => rfl
      | error e => simp [shiftErr, List.length_cons]; omega
  · rfl

theorem parseError_line_is_zero_based_witness :
    (∀ l ∈ [strL "", strL ";c"],
      pstrip l = [] ∨ (pstrip l).head? = some ';') ∧
    loadsAux ([strL "", strL ";c"] ++ [strL "x"]) 0 [] none
      = shiftErr ([strL "", strL ";c"].length) (loadsAux [strL "x"] 0 [] none) :=
  ⟨by decide, parseError_line_is_zero_based.1 _ _ (by decide)⟩

/-- The parser fails at a line exactly when the claim's scan of the raw
lines designates that line as offending; the accumulated sections play no
role in failure. -/
theorem loadsAux_error_iff_spec :
    ∀ (lines : List (List Char)) (i : Nat) (secs : IniDoc)
      (cur : Option (List Char)) (e : ParseErr),
      (loadsAux lines i secs cur = .error e ↔
        specFirstBadLine lines i cur.isSome = some e) := by
  intro lines
  induction lines with
  | nil => intro i secs cur e; simp [loadsAux, specFirstBadLine]
  | cons l rest ih =>
    intro i secs cur e
    simp only [loadsAux, specFirstBadLine]
    rcases hp : pstrip l with _ | ⟨c, cs⟩
    · exact ih (i + 1) secs cur e
    · by_cases hc : c = ';'
      · simp only [if_pos hc]
        exact ih (i + 1) secs cur e
      · simp only [if_neg hc]
        by_cases hb : c = '['
        · simp only [if_pos hb]
          by_cases hl : (c :: cs).getLast (by simp) ≠ ']'
          · simp only [if_pos hl]
            constructor
            · intro h; cases h; rfl
            · intro h; cases h; rfl
          · simp only [if_neg hl]
            by_cases hv : ¬ validSectionName (pstrip cs.dropLast)
            · simp only [if_pos hv]
              constructor
              · intro h; cases h; rfl
              · intro h; cases h; rfl
            · simp only [if_neg hv]
              exact ih (i + 1) (odInsertFresh secs (pstrip cs.dropLast))
                (some (pstrip cs.dropLast)) e
        · simp only [if_neg hb]
          cases cur with
          | none =>
            simp only [Option.isSome_none, Bool.false_eq_true, if_neg,
              reduceIte]
            constructor
            · intro h; cases h; rfl
            · intro h; cases h; rfl
          | some curName =>
            simp only [Option.isSome_some, if_pos]
            cases hsp : splitFirstEq (c :: cs) with
            | some kv => exact ih (i + 1) _ (some curName) e
            | none => exact ih (i + 1) _ (some curName) e

/-- Claim C5: parsing fails with a ParseError naming line i exactly when
the scan of the input lines — skip blank and comment lines; a line
starting with a bracket must end with one and carry a valid section name;
any other line before the first section header is an error — designates
line i as the first offending line; otherwise parsing succeeds (each
remaining line being skipped, a header, or recorded as a pair by
splitting once on the first equals sign, or as (line, True) without
one). -/
theorem parse_fails_iff_offending_line (s : List Char) :
    (∀ e, loads s = .error e ↔ specFirstBadLine (splitLines s) 0 false = some e) ∧
    ((loads s).isOk = true ↔ specFirstBadLine (splitLines s) 0 false = none) := by
  have key : ∀ e, loads s = .error e ↔
      specFirstBadLine (splitLines s) 0 false = some e := by
    intro e
    exact loadsAux_error_iff_spec (splitLines s) 0 [] none e
  refine ⟨key, ?_⟩
  cases h : loads s with
  | ok d =>
    simp only [Except.isOk, Except.toBool, true_iff]
    cases hs : specFirstBadLine (splitLines s) 0 false with
    | none => rfl
    | some e =>
      rw [((key e).mpr hs)] at h
      cases h
  | error e =>
    simp only [Except.isOk, Except.toBool, false_iff]
    rw [(key e).mp h]
    simp

/-!
### Whitespace / strip lemmas for the round-trip proof
-/

theorem not_ws_head_of_dropWhile_eq {c : Char} {t : List Char}
    (h : List.dropWhile isPyWS (c :: t) = c :: t) : isPyWS c = false := by
  by_cases hw : isPyWS c
  · rw [List.dropWhile_cons, if_pos hw] at h
    have hlen := congrArg List.length h
    have hsub : List.Sublist (t.dropWhile isPyWS) t := List.dropWhile_sublist _
    have := hsub.length_le
    simp at hlen
    omega
  · simpa using hw

theorem lstrip_of_head_not_ws {c : Char} (l : List Char)
    (h : isPyWS c = false) : lstrip (c :: l) = c :: l := by
  simp [lstrip, List.dropWhile_cons, h]

theorem lstrip_cons_ws {c : Char} (l : List Char) (h : isPyWS c = true) :
    lstrip (c :: l) = lstrip l := by
  simp [lstrip, List.dropWhile_cons, h]

theorem rstrip_append_not_ws {c : Char} (l : List Char)
    (h : isPyWS c = false) : rstrip (l ++ [c]) = l ++ [c] := by
  simp [rstrip, List.dropWhile_cons, h]

theorem rstrip_append_ws {c : Char} (l : List Char) (h : isPyWS c = true) :
    rstrip (l ++ [c]) = rstrip l := by
  simp [rstrip, List.dropWhile_cons, h]

/-- A string equal to its own strip is equal to each one-sided strip. -/
theorem strip_eq_self_split {l : List Char} (h : pstrip l = l) :
    lstrip l = l ∧ rstrip l = l := by
  have h1 : (lstrip l).length ≤ l.length :=
    (List.dropWhile_sublist _).length_le
  have h2 : (rstrip (lstrip l)).length ≤ (lstrip l).length := by
    have hsub : List.Sublist ((lstrip l).reverse.dropWhile isPyWS)
        ((lstrip l).reverse) := List.dropWhile_sublist _
    have := hsub.length_le
    simpa [rstrip] using this
  have hlen : (pstrip l).length = l.length := by rw [h]
  have hls : (lstrip l).length = l.length := by
    simp only [pstrip] at hlen
    omega
  have hl : lstrip l = l :=
    (List.dropWhile_sublist _).eq_of_length hls
  refine ⟨hl, ?_⟩
  have := h
  simp only [pstrip, hl] at this
  exact this

/-- The reverse form of one-sided stripping. -/
theorem dropWhile_reverse_of_rstrip {l : List Char} (h : rstrip l = l) :
    List.dropWhile isPyWS l.reverse = l.reverse := by
  have := congrArg List.reverse h
  simpa [rstrip] using this

theorem lstrip_append_left {a : List Char} (b : List Char)
    (ha : lstrip a = a) (hne : a ≠ []) : lstrip (a ++ b) = a ++ b := by
  rcases a with _ | ⟨c, t⟩
  · exact absurd rfl hne
  · have hc : isPyWS c = false := not_ws_head_of_dropWhile_eq ha
    simpa using lstrip_of_head_not_ws (t ++ b) hc

theorem rstrip_append_right (a : List Char) {b : List Char}
    (hb : rstrip b = b) (hne : b ≠ []) : rstrip (a ++ b) = a ++ b := by
  have hrev := dropWhile_reverse_of_rstrip hb
  rcases hr : b.reverse with _ | ⟨c, t⟩
  · exact absurd (by simpa using congrArg List.reverse hr) hne
  · rw [hr] at hrev
    have hc : isPyWS c = false := not_ws_head_of_dropWhile_eq hrev
    have : (a ++ b).reverse = c :: (t ++ a.reverse) := by
      rw [List.reverse_append, hr, List.cons_append]
    simp only [rstrip, this, List.dropWhile_cons, hc, Bool.false_eq_true,
      if_neg, reduceIte]
    have : (c :: (t ++ a.reverse)).reverse = a ++ b := by
      have : c :: (t ++ a.reverse) = (a ++ b).reverse := this.symm
      rw [this, List.reverse_reverse]
    exact this

/-- A string of non-whitespace characters strips to itself. -/
theorem pstrip_of_no_ws {l : List Char}
    (h : ∀ c ∈ l, isPyWS c = false) : pstrip l = l := by
  rcases l with _ | ⟨c, t⟩
  · rfl
  · have hl : lstrip (c :: t) = c :: t :=
      lstrip_of_head_not_ws t (h c (by simp))
    rw [pstrip, hl]
    rcases hr : (c :: t).reverse with _ | ⟨d, u⟩
    · simpa using congrArg List.length hr
    · have hd : d ∈ c :: t := by
        have hmem : d ∈ (c :: t).reverse := by rw [hr]; simp
        exact List.mem_reverse.mp hmem
      simp only [rstrip, hr, List.dropWhile_cons, h d hd, Bool.false_eq_true,
        if_neg, reduceIte]
      have := congrArg List.reverse hr
      simpa using this.symm

theorem isNameChar_not_ws (c : Char) (h : isNameChar c = true) :
    isPyWS c = false := by
  by_contra hw
  rw [Bool.not_eq_false] at hw
  simp only [isPyWS, Bool.or_eq_true, beq_iff_eq] at hw
  rcases hw with ((((rfl | rfl) | rfl) | rfl) | rfl) | rfl <;>
    exact absurd h (by decide)

/-!
### Line-splitting lemmas for the round-trip proof
-/

theorem splitLines_cons_of_ne {c : Char} (l : List Char) (h : ¬ c = '\n') :
    splitLines (c :: l) =
      (c :: (splitLines l).headI) :: (splitLines l).tail := by
  have hne : splitLines l ≠ [] := by
    cases l with
    | nil => simp [splitLines]
    | cons d t =>
      simp only [splitLines]
      split
      · simp
      · split <;> simp_all
  rw [splitLines, if_neg h]
  rcases hl : splitLines l with _ | ⟨x, xs⟩
  · exact absurd hl hne
  · simp

theorem splitLines_newline_append (l : List Char) (s : List Char)
    (h : '\n' ∉ l) : splitLines (l ++ '\n' :: s) = l :: splitLines s := by
  induction l with
  | nil => simp [splitLines]
  | cons c t ih =>
    have hc : ¬ c = '\n' := by
      intro hc
      exact h (by simp [hc])
    have ht : '\n' ∉ t := fun hm => h (by simp [hm])
    rw [List.cons_append, splitLines_cons_of_ne _ hc, ih ht]
    simp

theorem splitLines_joinNl (ls : List (List Char)) (rest : List Char)
    (h : ∀ l ∈ ls, '\n' ∉ l) :
    splitLines (joinNl ls ++ rest) = ls ++ splitLines rest := by
  induction ls with
  | nil => simp [joinNl]
  | cons l ls' ih =>
    have hjoin : joinNl (l :: ls') ++ rest = l ++ '\n' :: (joinNl ls' ++ rest) := by
      simp [joinNl, List.append_assoc]
    rw [hjoin, splitLines_newline_append _ _ (h l (by simp)),
      ih (fun x hx => h x (by simp [hx]))]
    simp

theorem joinNl_append (a b : List (List Char)) :
    joinNl (a ++ b) = joinNl a ++ joinNl b := by
  induction a with
  | nil => simp [joinNl]
  | cons l a' ih =>
    show l ++ '\n' :: joinNl (a' ++ b) = (l ++ '\n' :: joinNl a') ++ joinNl b
    rw [ih]
    simp [List.append_assoc]

theorem dumpPair_eq (p : List Char × Value) :
    dumpPair p = pairLine p ++ ['\n'] := by
  simp [dumpPair, pairLine, List.append_assoc]

theorem foldr_dumpPair_shift (ps : List (List Char × Value)) (t : List Char) :
    List.foldr (fun p acc => dumpPair p ++ acc) [] ps ++ t
      = List.foldr (fun p acc => dumpPair p ++ acc) t ps := by
  induction ps with
  | nil => simp
  | cons p ps' ih => simp [List.append_assoc, ih]

theorem foldr_dumpPair_eq_joinNl (ps : List (List Char × Value)) :
    List.foldr (fun p acc => dumpPair p ++ acc) ['\n'] ps
      = joinNl (ps.map pairLine ++ [[]]) := by
  induction ps with
  | nil => rfl
  | cons p ps' ih =>
    show dumpPair p ++ List.foldr (fun p acc => dumpPair p ++ acc) ['\n'] ps'
      = pairLine p ++ '\n' :: joinNl (ps'.map pairLine ++ [[]])
    rw [ih, dumpPair_eq]
    simp [List.append_assoc]

theorem dumpSection_eq_joinNl (sec : UwsgiSection) :
    dumpSection sec = joinNl (lineListSec sec) := by
  have h1 : joinNl (lineListSec sec)
      = ('[' :: sec.name ++ [']'])
          ++ '\n' :: joinNl (sec.pairs.map pairLine ++ [[]]) := rfl
  rw [h1, ← foldr_dumpPair_eq_joinNl]
  show '[' :: sec.name ++ [']', '\n']
      ++ List.foldr (fun p acc => dumpPair p ++ acc) [] sec.pairs ++ ['\n'] = _
  rw [List.append_assoc, foldr_dumpPair_shift]
  simp [List.append_assoc]

theorem dumps_eq_joinNl (doc : IniDoc) : dumps doc = joinNl (allLines doc) := by
  unfold dumps allLines
  induction doc with
  | nil => rfl
  | cons sec doc' ih =>
    simp only [List.foldr_cons]
    rw [joinNl_append, ← ih, dumpSection_eq_joinNl]

/-!
### Processing of serialized lines
-/

theorem validSectionName_parts {name : List Char}
    (hv : validSectionName name = true) :
    name ≠ [] ∧ ∀ c ∈ name, isNameChar c = true := by
  have := hv
  simp only [validSectionName, Bool.and_eq_true, decide_eq_true_eq,
    List.all_eq_true] at this
  exact ⟨this.1, this.2⟩

theorem pstrip_headerLine {name : List Char}
    (hv : validSectionName name = true) :
    pstrip ('[' :: name ++ [']']) = '[' :: name ++ [']'] := by
  apply pstrip_of_no_ws
  intro c hc
  have hc2 : c = '[' ∨ c ∈ name ∨ c = ']' := by simpa using hc
  rcases hc2 with rfl | hc2 | rfl
  · decide
  · exact isNameChar_not_ws c ((validSectionName_parts hv).2 c hc2)
  · decide

theorem loadsAux_header (name : List Char) (hv : validSectionName name = true)
    (rest : List (List Char)) (i : Nat) (secs : IniDoc)
    (cur : Option (List Char)) :
    loadsAux (('[' :: name ++ [']']) :: rest) i secs cur
      = loadsAux rest (i + 1) (odInsertFresh secs name) (some name) := by
  have hlast : ('[' :: (name ++ [']'])).getLast (by simp) = ']' :=
    List.getLast_concat ('[' :: name)
  have hname : (name ++ [']']).dropLast = name := List.dropLast_concat
  have hps : pstrip ('[' :: name ++ [']']) = '[' :: (name ++ [']']) := by
    simpa using pstrip_headerLine hv
  have hpname : pstrip name = name :=
    pstrip_of_no_ws
      (fun c hc => isNameChar_not_ws c ((validSectionName_parts hv).2 c hc))
  simp only [loadsAux, hps, hlast, hname, hpname, hv]
  simp

theorem splitFirstEq_append (a b : List Char) (h : '=' ∉ a) :
    splitFirstEq (a ++ '=' :: b) = some (a, b) := by
  induction a with
  | nil => simp [splitFirstEq]
  | cons c t ih =>
    have hc : ¬ c = '=' := fun hc => h (by simp [hc])
    have ht : '=' ∉ t := fun hm => h (by simp [hm])
    simp [splitFirstEq, hc, ih ht]

theorem pstrip_cons_ws {c : Char} (l : List Char) (h : isPyWS c = true) :
    pstrip (c :: l) = pstrip l := by
  simp [pstrip, lstrip_cons_ws _ h]

theorem strL_sp_eq : strL " = " = [' ', '=', ' '] := rfl

/-- Parsing one serialized pair line appends exactly the serialized pair
to the current section. -/
theorem loadsAux_pairLine (k vs : List Char)
    (hks : pstrip k = k) (hvs : pstrip vs = vs) (hkeq : '=' ∉ k)
    (hsemi : k.head? ≠ some ';') (hbr : k.head? ≠ some '[')
    (rest : List (List Char)) (i : Nat) (secs : IniDoc) (curName : List Char) :
    loadsAux ((k ++ strL " = " ++ vs) :: rest) i secs (some curName)
      = loadsAux rest (i + 1) (appendPairTo secs curName k (Value.str vs))
          (some curName) := by
  obtain ⟨hkl, hkr⟩ := strip_eq_self_split hks
  obtain ⟨hvl, hvr⟩ := strip_eq_self_split hvs
  have hsp : pstrip (k ++ [' ']) = k := by
    rcases k with _ | ⟨kh, kt⟩
    · decide
    · have hh : isPyWS kh = false := not_ws_head_of_dropWhile_eq hkl
      have h1 : lstrip ((kh :: kt) ++ [' ']) = (kh :: kt) ++ [' '] := by
        simpa using lstrip_of_head_not_ws (kt ++ [' ']) hh
      show rstrip (lstrip ((kh :: kt) ++ [' '])) = kh :: kt
      rw [h1, rstrip_append_ws _ (by decide)]
      exact hkr
  have hspv : pstrip (' ' :: vs) = vs := by
    rw [pstrip_cons_ws _ (by decide)]
    exact hvs
  rcases k with _ | ⟨kh, kt⟩
  · rcases vs with _ | ⟨vh, vt⟩
    · rfl
    · have hline : pstrip ([] ++ strL " = " ++ (vh :: vt))
          = '=' :: (' ' :: vh :: vt) := by
        show pstrip (' ' :: '=' :: ' ' :: vh :: vt) = _
        rw [pstrip_cons_ws _ (by decide)]
        show rstrip (lstrip ('=' :: ' ' :: vh :: vt)) = _
        rw [lstrip_of_head_not_ws _ (by decide)]
        exact rstrip_append_right ['=', ' '] hvr (by simp)
      simp only [loadsAux, hline]
      have hsplit : splitFirstEq ('=' :: (' ' :: vh :: vt))
          = some ([], ' ' :: vh :: vt) := by
        simp [splitFirstEq]
      simp only [hsplit, hspv]
      rfl
  · have hh : isPyWS kh = false := not_ws_head_of_dropWhile_eq hkl
    have hsemi' : ¬ kh = ';' := by
      intro h
      exact hsemi (by simp [h])
    have hbr' : ¬ kh = '[' := by
      intro h
      exact hbr (by simp [h])
    have hkeq' : '=' ∉ (kh :: kt) ++ [' '] := by
      intro hm
      rcases List.mem_append.mp hm with hm | hm
      · exact hkeq hm
      · simp at hm
    rcases vs with _ | ⟨vh, vt⟩
    · have hline : pstrip ((kh :: kt) ++ strL " = " ++ [])
          = (kh :: kt) ++ [' ', '='] := by
        show rstrip (lstrip ((kh :: kt) ++ strL " = " ++ [])) = _
        have h1 : lstrip ((kh :: kt) ++ strL " = " ++ [])
            = (kh :: kt) ++ strL " = " ++ [] := by
          have := lstrip_of_head_not_ws (kt ++ strL " = " ++ []) hh
          simpa [List.append_assoc] using this
        rw [h1]
        have h2 : (kh :: kt) ++ strL " = " ++ []
            = ((kh :: kt) ++ [' ', '=']) ++ [' '] := by
          simp [strL_sp_eq, List.append_assoc]
        rw [h2, rstrip_append_ws _ (by decide)]
        have h3 : (kh :: kt) ++ [' ', '=']
            = ((kh :: kt) ++ [' ']) ++ ['='] := by
          simp [List.append_assoc]
        rw [h3]
        rw [rstrip_append_right _ (by decide) (by simp)]
      have hcons : (kh :: kt) ++ [' ', '='] = kh :: (kt ++ [' ', '=']) := by
        simp
      have hsplit : splitFirstEq (kh :: (kt ++ [' ', '=']))
          = some ((kh :: kt) ++ [' '], []) := by
        have h4 : kh :: (kt ++ [' ', '='])
            = ((kh :: kt) ++ [' ']) ++ '=' :: [] := by
          simp [List.append_assoc]
        rw [h4]
        exact splitFirstEq_append _ _ hkeq'
      simp only [loadsAux, hline, hcons, hsplit, hsp, hsemi', hbr']
      rfl
    · have hline : pstrip ((kh :: kt) ++ strL " = " ++ (vh :: vt))
          = (kh :: kt) ++ strL " = " ++ (vh :: vt) := by
        show rstrip (lstrip ((kh :: kt) ++ strL " = " ++ (vh :: vt))) = _
        have h1 : lstrip ((kh :: kt) ++ strL " = " ++ (vh :: vt))
            = (kh :: kt) ++ strL " = " ++ (vh :: vt) := by
          have := lstrip_of_head_not_ws (kt ++ strL " = " ++ (vh :: vt)) hh
          simpa [List.append_assoc] using this
        rw [h1]
        exact rstrip_append_right _ hvr (by simp)
      have hcons : (kh :: kt) ++ strL " = " ++ (vh :: vt)
          = kh :: (kt ++ strL " = " ++ (vh :: vt)) := by
        simp
      have hsplit : splitFirstEq (kh :: (kt ++ strL " = " ++ (vh :: vt)))
          = some ((kh :: kt) ++ [' '], ' ' :: vh :: vt) := by
        have h4 : kh :: (kt ++ strL " = " ++ (vh :: vt))
            = ((kh :: kt) ++ [' ']) ++ '=' :: (' ' :: vh :: vt) := by
          simp [strL_sp_eq, List.append_assoc]
        rw [h4]
        exact splitFirstEq_append _ _ hkeq'
      have hline2 : pstrip ((kh :: kt) ++ strL " = " ++ (vh :: vt))
          = kh :: (kt ++ strL " = " ++ (vh :: vt)) := hline.trans hcons
      simp only [loadsAux, hline2, hsplit, hsp, hspv, hsemi', hbr']
      rfl

theorem odInsertFresh_new (secs : IniDoc) (n : List Char)
    (h : ∀ s ∈ secs, s.name ≠ n) :
    odInsertFresh secs n = secs ++ [⟨n, []⟩] := by
  unfold odInsertFresh
  rw [if_neg]
  intro ha
  obtain ⟨s, hs, hsn⟩ := List.any_eq_true.mp ha
  exact h s hs (by simpa using hsn)

theorem map_untouched_of_other_name (n : List Char) (k : List Char) (v : Value) :
    ∀ (l : IniDoc), (∀ s ∈ l, s.name ≠ n) →
      l.map (fun s => if s.name = n then sectionSet s k v else s) = l := by
  intro l hl
  induction l with
  | nil => rfl
  | cons a t iht =>
    rw [List.map_cons, if_neg (hl a (by simp)),
      iht (fun s hs => hl s (by simp [hs]))]

theorem appendPairTo_fresh_last (secs : IniDoc) (n : List Char)
    (done : List (List Char × Value)) (k : List Char) (v : Value)
    (h : ∀ s ∈ secs, s.name ≠ n) :
    appendPairTo (secs ++ [⟨n, done⟩]) n k v
      = secs ++ [⟨n, done ++ [(k, v)]⟩] := by
  unfold appendPairTo
  rw [List.map_append, map_untouched_of_other_name n k v secs h]
  simp [sectionSet]

theorem loadsAux_pairBlock (n : List Char) :
    ∀ (ps : List (List Char × Value)) (done : List (List Char × Value))
      (rest : List (List Char)) (i : Nat) (secs : IniDoc),
      (∀ p ∈ ps, WfPair p) → (∀ s ∈ secs, s.name ≠ n) →
      loadsAux (ps.map pairLine ++ rest) i (secs ++ [⟨n, done⟩]) (some n)
        = loadsAux rest (i + ps.length)
            (secs ++ [⟨n, done ++ ps.map normPair⟩]) (some n) := by
  intro ps
  induction ps with
  | nil => intro done rest i secs _ _; simp
  | cons p ps' ih =>
    intro done rest i secs hw h
    obtain ⟨⟨hknl, hks⟩, ⟨hvnl, hvs⟩, hkeq, hsemi, hbr⟩ := hw p (by simp)
    have hstep := loadsAux_pairLine p.1 (pyStr p.2) hks hvs hkeq hsemi hbr
      (ps'.map pairLine ++ rest) i (secs ++ [⟨n, done⟩]) n
    rw [List.map_cons, List.cons_append]
    rw [show pairLine p = p.1 ++ strL " = " ++ pyStr p.2 from rfl]
    rw [hstep, appendPairTo_fresh_last secs n done p.1 (Value.str (pyStr p.2)) h]
    rw [ih (done ++ [(p.1, Value.str (pyStr p.2))]) rest (i + 1) secs
      (fun q hq => hw q (by simp [hq])) h]
    have harith : i + 1 + ps'.length = i + (p :: ps').length := by
      simp [List.length_cons]
      omega
    rw [harith]
    simp [List.append_assoc, normPair]

theorem loadsAux_sectionBlock (sec : UwsgiSection)
    (hv : validSectionName sec.name = true)
    (hps : ∀ p ∈ sec.pairs, WfPair p) (rest : List (List Char)) (i : Nat)
    (secs : IniDoc) (cur : Option (List Char))
    (h : ∀ s ∈ secs, s.name ≠ sec.name) :
    loadsAux (lineListSec sec ++ rest) i secs cur
      = loadsAux rest (i + (sec.pairs.length + 2)) (secs ++ [normSec sec])
          (some sec.name) := by
  rw [show lineListSec sec
      = ('[' :: sec.name ++ [']']) :: (sec.pairs.map pairLine ++ [[]]) from rfl]
  rw [List.cons_append, loadsAux_header sec.name hv _ i secs cur,
    odInsertFresh_new secs sec.name h, List.append_assoc]
  rw [loadsAux_pairBlock sec.name sec.pairs [] ([[]] ++ rest) (i + 1) secs hps h]
  rw [show ([[]] ++ rest : List (List Char)) = [] :: rest from rfl]
  rw [loadsAux_skip [] rest _ _ _ (Or.inl rfl)]
  have harith : i + 1 + sec.pairs.length + 1 = i + (sec.pairs.length + 2) := by
    omega
  rw [harith]
  rfl

theorem loadsAux_allLines :
    ∀ (doc : IniDoc) (secs : IniDoc) (i : Nat) (cur : Option (List Char)),
      (∀ sec ∈ doc, validSectionName sec.name = true ∧
        ∀ p ∈ sec.pairs, WfPair p) →
      (doc.map (fun s => s.name)).Nodup →
      (∀ sec ∈ doc, ∀ s ∈ secs, s.name ≠ sec.name) →
      loadsAux (allLines doc ++ [[]]) i secs cur = .ok (secs ++ normDoc doc) := by
  intro doc
  induction doc with
  | nil =>
    intro secs i cur _ _ _
    simp [allLines, normDoc]
    rfl
  | cons d ds ih =>
    intro secs i cur hwf hnd hfresh
    rw [show allLines (d :: ds) = lineListSec d ++ allLines ds from rfl,
      List.append_assoc]
    rw [loadsAux_sectionBlock d (hwf d (by simp)).1 (hwf d (by simp)).2 _ i secs
      cur (hfresh d (by simp))]
    rw [ih (secs ++ [normSec d]) _ (some d.name)
      (fun sec hs => hwf sec (by simp [hs]))
      (by simpa using (List.nodup_cons.mp (by simpa using hnd)).2) ?_]
    · simp [normDoc, List.append_assoc, normSec]
    · intro sec hs s hmem
      rcases List.mem_append.mp hmem with hm | hm
      · exact hfresh sec (by simp [hs]) s hm
      · have hsd : s = normSec d := by simpa using hm
        rw [hsd]
        show (normSec d).name ≠ sec.name
        have hdn : d.name ∉ ds.map (fun s => s.name) :=
          (List.nodup_cons.mp (by simpa using hnd)).1
        intro hc
        rw [show (normSec d).name = d.name from rfl] at hc
        apply hdn
        rw [hc]
        exact List.mem_map.mpr ⟨sec, hs, rfl⟩

theorem mem_allLines {l : List Char} :
    ∀ {doc : IniDoc}, l ∈ allLines doc → ∃ sec ∈ doc, l ∈ lineListSec sec := by
  intro doc
  induction doc with
  | nil => intro h; simp [allLines] at h
  | cons d ds ih =>
    intro h
    rcases List.mem_append.mp
        (by simpa [show allLines (d :: ds) = lineListSec d ++ allLines ds
          from rfl] using h) with hm | hm
    · exact ⟨d, by simp, hm⟩
    · obtain ⟨sec, hs, hmem⟩ := ih hm
      exact ⟨sec, by simp [hs], hmem⟩

theorem no_newline_in_allLines (doc : IniDoc) (h : WfDoc doc) :
    ∀ l ∈ allLines doc, '\n' ∉ l := by
  intro l hl hmem
  obtain ⟨sec, hsec, hline⟩ := mem_allLines hl
  obtain ⟨hv, hps⟩ := h.2 sec hsec
  rcases List.mem_cons.mp hline with rfl | hline2
  · have hm2 : '\n' = '[' ∨ '\n' ∈ sec.name ∨ '\n' = ']' := by simpa using hmem
    rcases hm2 with hx | hx | hx
    · exact absurd hx (by decide)
    · exact absurd (isNameChar_not_ws _ ((validSectionName_parts hv).2 _ hx))
        (by decide)
    · exact absurd hx (by decide)
  · rcases List.mem_append.mp hline2 with hm | hm
    · obtain ⟨p, hp, rfl⟩ := List.mem_map.mp hm
      obtain ⟨⟨hknl, _⟩, ⟨hvnl, _⟩, _⟩ := hps p hp
      have hm2 : '\n' ∈ p.1 ∨ '\n' ∈ strL " = " ∨ '\n' ∈ pyStr p.2 := by
        simpa [pairLine] using hmem
      rcases hm2 with hm2 | hm2 | hm2
      · exact hknl hm2
      · exact absurd hm2 (by decide)
      · exact hvnl hm2
    · have hnil : l = [] := by simpa using hm
      rw [hnil] at hmem
      simp at hmem

/-- Claim C3 (amended): for every document whose shape survives the text
format — unique section names matching the name pattern, keys and
rendered values single-line and already trimmed, keys free of an equals
sign and not starting a comment or header — parsing the serialization
yields exactly the same sections in the same order with the same pairs in
the same order, boolean values normalized to their string literal.
Comments have no representation in a document, and a comment line in
parsed text is skipped (second conjunct), so no comment survives a
serialize-parse round trip. -/
theorem serialize_parse_roundtrip (doc : IniDoc) (h : WfDoc doc) :
    loads (dumps doc) = .ok (normDoc doc) ∧
    loads (strL "[s]\n; note\nk = v")
      = .ok [⟨strL "s", [(strL "k", Value.str (strL "v"))]⟩] := by
  constructor
  · show loadsAux (splitLines (dumps doc)) 0 [] none = .ok (normDoc doc)
    rw [dumps_eq_joinNl]
    have hsl : splitLines (joinNl (allLines doc)) = allLines doc ++ [[]] := by
      have h2 := splitLines_joinNl (allLines doc) [] (no_newline_in_allLines doc h)
      simpa using h2
    rw [hsl]
    rw [loadsAux_allLines doc [] 0 none (fun sec hs => h.2 sec hs) h.1
      (by simp)]
    simp
  · rfl

theorem serialize_parse_roundtrip_witness :
    WfDoc [⟨strL "overlord",
        [(strL "daemonize", Value.str (strL "/tmp/o.log")),
         (strL "logdate", Value.bool true),
         (strL "master-fifo", Value.str (strL "/tmp/a.fifo")),
         (strL "master-fifo", Value.str (strL "/tmp/b.fifo"))]⟩,
      ⟨strL "zergling-1", [(strL "ini-paste", Value.str (strL "app.ini"))]⟩] ∧
    loads (dumps [⟨strL "overlord",
        [(strL "daemonize", Value.str (strL "/tmp/o.log")),
         (strL "logdate", Value.bool true),
         (strL "master-fifo", Value.str (strL "/tmp/a.fifo")),
         (strL "master-fifo", Value.str (strL "/tmp/b.fifo"))]⟩,
      ⟨strL "zergling-1", [(strL "ini-paste", Value.str (strL "app.ini"))]⟩])
      = .ok (normDoc [⟨strL "overlord",
        [(strL "daemonize", Value.str (strL "/tmp/o.log")),
         (strL "logdate", Value.bool true),
         (strL "master-fifo", Value.str (strL "/tmp/a.fifo")),
         (strL "master-fifo", Value.str (strL "/tmp/b.fifo"))]⟩,
      ⟨strL "zergling-1", [(strL "ini-paste", Value.str (strL "app.ini"))]⟩]) :=
  ⟨by decide, (serialize_parse_roundtrip _ (by decide)).1⟩

/-- Claim C3 is false as stated over all API-built documents: a value with
leading whitespace is trimmed by the parse, so the round trip changes the
pair even after boolean normalization. -/
theorem serialize_parse_roundtrip_counterexample :
    loads (dumps [⟨strL "s", [(strL "k", Value.str (strL " x"))]⟩])
      = .ok [⟨strL "s", [(strL "k", Value.str (strL "x"))]⟩] ∧
    normDoc [⟨strL "s", [(strL "k", Value.str (strL " x"))]⟩]
      ≠ [⟨strL "s", [(strL "k", Value.str (strL "x"))]⟩] := by
  exact ⟨rfl, by decide⟩

end ScoreUwsgi
